import Mathlib

/-!
Verification of the `structures` crate: the `LazyArray` uninitialized-memory
array (src/src/array/lazy.rs) and the `RingArray` ring buffer built on it
(src/src/array/ring.rs), checked against the natural-language specification.

Modelling conventions:
* A `MaybeUninit<T>` slot is `Option T`: `none` is uninitialized memory,
  `some t` a live value.
* A Rust panic (failed bounds check) and undefined behavior (reading or
  dropping an uninitialized slot) are both modelled by an operation
  returning `none`; a successful call returns `some` of the new state.
  Bounds are checked before any mutation, mirroring the source where slice
  indexing `self[index..end]` panics before the loop or copy runs.
* Machine integers (`usize`) are `Nat`; Rust's `saturating_sub` coincides
  with truncated `Nat` subtraction.
-/

namespace Structures

/-- Modelled from the spec: the raw fixed-capacity array of possibly
uninitialized slots (`Array::lazy`, defined in `src/array/mod.rs`, which is
not part of the provided sources). The spec describes it as one contiguous
region of `capacity` slots, each independently live or uninitialized, with
no intrinsic initialization tracking. A slot is `Option T`. -/
structure LazyArray (T : Type) where
  data : List (Option T)
deriving Repr, DecidableEq

namespace LazyArray

variable {T : Type}

/-- Modelled from the spec: number of slots of the backing array
(`LazyArray::len`, from `src/array/mod.rs`, missing from the sources);
the capacity fixed at construction. -/
def len (a : LazyArray T) : Nat := a.data.length

/-- Modelled from the spec: whether the backing array has zero slots
(`LazyArray::is_empty`, from `src/array/mod.rs`, missing from the
sources). -/
def is_empty (a : LazyArray T) : Bool := a.data.isEmpty

/-- Modelled from the spec: `Array::lazy(capacity)` constructs an array of
`capacity` uninitialized slots (`src/array/mod.rs`, missing from the
sources). -/
def lazy (capacity : Nat) : LazyArray T := ⟨List.replicate capacity none⟩

/-- Read off a list of slots, defined only when every slot is initialized;
an uninitialized slot makes the whole read undefined behavior (`none`). -/
def optList : List (Option T) → Option (List T)
  | [] => some []
  | none :: _ => none
  | some x :: rest => (optList rest).map (x :: ·)

/-- Embeds `LazyArray::assume_init` (lazy.rs:39-44): view slots
`[index, index+len)` as initialized values. Panics (`none`) when
`index + len` exceeds capacity; reading an uninitialized slot is
undefined behavior (`none`). -/
def assume_init (a : LazyArray T) (index n : Nat) : Option (List T) :=
  if index + n ≤ a.data.length then optList ((a.data.drop index).take n)
  else none

/-- Embeds `LazyArray::assume_init_mut` (lazy.rs:84-89): same access as
`assume_init` but through a mutable view; the values exposed are the
same. -/
def assume_init_mut (a : LazyArray T) (index n : Nat) : Option (List T) :=
  if index + n ≤ a.data.length then optList ((a.data.drop index).take n)
  else none

/-- Embeds `LazyArray::assume_init_drop` (lazy.rs:120-127): run teardown on
slots `[index, index+n)`, leaving them uninitialized. Panics (`none`) out
of bounds; dropping an uninitialized slot is undefined behavior
(`none`). -/
def assume_init_drop (a : LazyArray T) (index n : Nat) : Option (LazyArray T) :=
  if index + n ≤ a.data.length then
    if ((a.data.drop index).take n).all Option.isSome then
      some ⟨a.data.take index ++ List.replicate n none ++ a.data.drop (index + n)⟩
    else none
  else none

/-- Embeds `LazyArray::write_from_slice` (lazy.rs:165-172): clone each
source element into the destination slot without tearing down previous
content. The slice indexing `self[index..index + elems.len()]` panics
(`none`) before any write when the range exceeds capacity. -/
def write_from_slice (a : LazyArray T) (index : Nat) (elems : List T) :
    Option (LazyArray T) :=
  if index + elems.length ≤ a.data.length then
    some ⟨a.data.take index ++ elems.map some ++ a.data.drop (index + elems.length)⟩
  else none

/-- Embeds `LazyArray::overwrite_from_slice` (lazy.rs:207-218): tear down
each destination slot, then clone the source element into it. The slice
indexing panics (`none`) before any write when the range exceeds capacity;
tearing down an uninitialized slot is undefined behavior (`none`). -/
def overwrite_from_slice (a : LazyArray T) (index : Nat) (elems : List T) :
    Option (LazyArray T) :=
  if index + elems.length ≤ a.data.length then
    if ((a.data.drop index).take elems.length).all Option.isSome then
      some ⟨a.data.take index ++ elems.map some ++ a.data.drop (index + elems.length)⟩
    else none
  else none

/-- Embeds `LazyArray::copy_from_slice` (lazy.rs:245-256): bulk copy of
`Copy` elements into `[index, index + elems.len())`. The slice indexing
`self[index..end_index]` panics (`none`) before the copy when the range
exceeds capacity. -/
def copy_from_slice (a : LazyArray T) (index : Nat) (elems : List T) :
    Option (LazyArray T) :=
  if index + elems.length ≤ a.data.length then
    some ⟨a.data.take index ++ elems.map some ++ a.data.drop (index + elems.length)⟩
  else none

end LazyArray

/-- Embeds `RingArray` (ring.rs:10-14): logical length, write cursor, and
the backing `LazyArray`. -/
structure RingArray (T : Type) where
  len : Nat
  next : Nat
  array : LazyArray T
deriving Repr, DecidableEq

namespace RingArray

variable {T : Type}

/-- Embeds `RingArray::with_capacity` (ring.rs:23-29). -/
def with_capacity (capacity : Nat) : RingArray T :=
  { len := 0, next := 0, array := LazyArray.lazy capacity }

/-- Embeds `RingArray::as_slices` (ring.rs:37-51): content as a head and a
tail view. Unwrapped (`len < cap`): head is slots `[0, len)`, tail empty.
Otherwise head is slots `[next, cap)` and tail slots `[0, next)`. -/
def as_slices (r : RingArray T) : Option (List T × List T) :=
  let cap := r.array.len
  if r.len < cap then
    (r.array.assume_init 0 r.len).map (fun head => (head, []))
  else
    (r.array.assume_init r.next (cap - r.next)).bind fun head =>
      (r.array.assume_init 0 r.next).map fun tail => (head, tail)

/-- Embeds `RingArray::iter` (ring.rs:57-60): the iteration order is the
head view chained with the tail view. -/
def iterList (r : RingArray T) : Option (List T) :=
  r.as_slices.map fun p => p.1 ++ p.2

/-- Embeds `RingArray::copy_from_slice` (ring.rs:73-99): append a batch,
evicting oldest elements. Follows the source exactly: bail when capacity
or batch is empty, skip the prefix of an over-long batch
(`start = elems.len().saturating_sub(cap)`), then either copy in place
(`split_at_checked` returns `None`: the rest is shorter than `cap - next`)
or split at `cap - next` and wrap. -/
def copy_from_slice (r : RingArray T) (elems : List T) : Option (RingArray T) :=
  if r.array.is_empty || elems.isEmpty then some r
  else
    let cap := r.array.len
    let start := elems.length - cap
    let rest := elems.drop start
    if cap - r.next ≤ rest.length then
      let head := rest.take (cap - r.next)
      let tail := rest.drop (cap - r.next)
      (r.array.copy_from_slice r.next head).bind fun a1 =>
        (a1.copy_from_slice 0 tail).map fun a2 =>
          { len := cap, next := tail.length, array := a2 }
    else
      (r.array.copy_from_slice r.next elems).map fun a1 =>
        { len := min (r.len + elems.length) cap,
          next := r.next + elems.length, array := a1 }

/-- The sequence of `(index, slice)` bulk-copy calls `copy_from_slice`
issues to the backing array, read off the same source branches
(ring.rs:73-99). -/
def appendWrites (r : RingArray T) (elems : List T) : List (Nat × List T) :=
  if r.array.is_empty || elems.isEmpty then []
  else
    let cap := r.array.len
    let start := elems.length - cap
    let rest := elems.drop start
    if cap - r.next ≤ rest.length then
      [(r.next, rest.take (cap - r.next)), (0, rest.drop (cap - r.next))]
    else
      [(r.next, elems)]

/-- Run a sequence of append batches from a given state, propagating
panic/undefined behavior through `Option`. -/
def appendBatches (r : RingArray T) : List (List T) → Option (RingArray T)
  | [] => some r
  | b :: rest => (r.copy_from_slice b).bind fun r' => appendBatches r' rest

end RingArray

namespace Oracle

variable {T : Type}

/-- One push of the reference bounded deque (ring.rs tests, Oracle,
lines 137-143): pop the front when at capacity, then push to the back. -/
def push (cap : Nat) (q : List T) (item : T) : List T :=
  (if q.length = cap then q.tail else q) ++ [item]

/-- Embeds `Oracle::extend_from_slice` (ring.rs:132-144): push the batch
one element at a time; a capacity-0 oracle ignores every batch. -/
def extend_from_slice (cap : Nat) (q : List T) (items : List T) : List T :=
  if cap = 0 then q else items.foldl (push cap) q

/-- The reference bounded deque after a whole sequence of batches, from
empty. -/
def run (cap : Nat) (batches : List (List T)) : List T :=
  batches.foldl (extend_from_slice cap) []

end Oracle

/-! ### Basic lemmas about the slot-list reader and the bulk copy -/

namespace LazyArray

variable {T : Type}

theorem optList_map_some (xs : List T) : optList (xs.map some) = some xs := by
  induction xs with
  | nil => rfl
  | cons x xs ih => simp [optList, ih]

theorem assume_init_shape (a : LazyArray T) (pre suf : List (Option T)) (xs : List T)
    (h : a.data = pre ++ xs.map some ++ suf) :
    a.assume_init pre.length xs.length = some xs := by
  have hb : pre.length + xs.length ≤ a.data.length := by
    simp [h]
  rw [assume_init, if_pos hb, h, List.append_assoc, List.drop_left,
    List.take_append_eq_append_take, List.take_of_length_le (by simp),
    List.length_map, Nat.sub_self, List.take_zero, List.append_nil,
    optList_map_some]

theorem copy_from_slice_eq (a : LazyArray T) (index : Nat) (elems : List T)
    (h : index + elems.length ≤ a.data.length) :
    a.copy_from_slice index elems =
      some ⟨a.data.take index ++ elems.map some ++ a.data.drop (index + elems.length)⟩ := by
  rw [copy_from_slice, if_pos h]

theorem len_copy_from_slice (a a' : LazyArray T) (index : Nat) (elems : List T)
    (h : a.copy_from_slice index elems = some a') : a'.len = a.len := by
  rw [copy_from_slice] at h
  split at h
  · cases h
    simp only [len]
    simp
    omega
  · cases h

end LazyArray

/-! ### The oracle deque computes the suffix of the concatenated stream -/

namespace Oracle

variable {T : Type}

theorem length_push (cap : Nat) (q : List T) (x : T) (hc : 0 < cap)
    (h : q.length ≤ cap) : (push cap q x).length ≤ cap := by
  rw [push]
  split <;> simp <;> omega

theorem foldl_push_eq (cap : Nat) (hc : 0 < cap) (b : List T) :
    ∀ m : List T, m.length ≤ cap →
      b.foldl (push cap) m = (m ++ b).drop (m.length + b.length - cap) := by
  induction b with
  | nil =>
    intro m hm
    simp [Nat.sub_eq_zero_of_le hm]
  | cons x b' ih =>
    intro m hm
    rw [List.foldl_cons, ih (push cap m x) (length_push cap m x hc hm)]
    by_cases h : m.length = cap
    · cases m with
      | nil => simp at h; omega
      | cons y ys =>
        rw [push, if_pos h, List.tail_cons]
        have h1 : (ys ++ [x]).length = cap := by
          simp at h ⊢
          omega
        rw [h1]
        have h2 : cap + b'.length - cap = b'.length := by omega
        have h3 : (y :: ys).length + (x :: b').length - cap = b'.length + 1 := by
          simp at h ⊢
          omega
        rw [h2, h3, List.cons_append, List.drop_succ_cons, List.append_assoc]
        rfl
    · have hlt : m.length < cap := lt_of_le_of_ne hm h
      simp only [push, if_neg h]
      have h1 : (m ++ [x]).length = m.length + 1 := by simp
      rw [h1, List.append_assoc]
      have h2 : m.length + 1 + b'.length - cap = m.length + (x :: b').length - cap := by
        simp
        omega
      rw [h2]
      rfl

theorem extend_eq (cap : Nat) (hc : 0 < cap) (m b : List T) (hm : m.length ≤ cap) :
    extend_from_slice cap m b = (m ++ b).drop (m.length + b.length - cap) := by
  rw [extend_from_slice, if_neg (by omega)]
  exact foldl_push_eq cap hc b m hm

theorem length_extend (cap : Nat) (m b : List T) (hm : m.length ≤ cap) :
    (extend_from_slice cap m b).length ≤ cap := by
  by_cases hc : cap = 0
  · subst hc
    simpa [extend_from_slice] using hm
  · rw [extend_eq cap (by omega) m b hm]
    simp
    omega

end Oracle

end Structures

namespace Structures

namespace RingArray

variable {T : Type}

/-- Abstraction relation: ring-buffer state `r` represents logical content
`m` (insertion order, oldest first). Unwrapped states hold `m` in the slot
prefix with the cursor at the end; wrapped states hold the tail of `m` in
slots `[0, next)` and the head in slots `[next, cap)`. -/
def RingAbs (r : RingArray T) (m : List T) : Prop :=
  r.next ≤ r.array.len ∧
  (0 < r.array.len → r.next < r.array.len) ∧
  ((r.len < r.array.len ∧ r.next = r.len ∧ m.length = r.len ∧
      ∃ junk, r.array.data = m.map some ++ junk)
   ∨
   (r.len = r.array.len ∧ m.length = r.array.len ∧
      r.array.data = (m.drop (r.array.len - r.next)).map some ++
                     (m.take (r.array.len - r.next)).map some))

theorem ringAbs_init (cap : Nat) : RingAbs (with_capacity cap : RingArray T) [] := by
  refine ⟨Nat.zero_le _, fun h => h, ?_⟩
  by_cases hc : cap = 0
  · right
    subst hc
    simp [with_capacity, LazyArray.lazy, LazyArray.len]
  · left
    refine ⟨?_, rfl, rfl, List.replicate cap none, ?_⟩ <;>
      simp [with_capacity, LazyArray.lazy, LazyArray.len]
    omega

theorem ringAbs_len_le (r : RingArray T) (m : List T) (h : RingAbs r m) :
    m.length ≤ r.array.len ∧ m.length = r.len ∧ r.len ≤ r.array.len := by
  obtain ⟨h1, h2, h3 | h3⟩ := h
  · exact ⟨by omega, h3.2.2.1, by omega⟩
  · exact ⟨by omega, by omega, by omega⟩

theorem copy_from_slice_main (r : RingArray T) (elems : List T)
    (h1 : ¬ r.array.is_empty = true) (h2 : ¬ elems.isEmpty = true) :
    r.copy_from_slice elems =
      (if r.array.len - r.next ≤ (elems.drop (elems.length - r.array.len)).length then
        (r.array.copy_from_slice r.next
            ((elems.drop (elems.length - r.array.len)).take (r.array.len - r.next))).bind fun a1 =>
          (a1.copy_from_slice 0
              ((elems.drop (elems.length - r.array.len)).drop (r.array.len - r.next))).map fun a2 =>
            { len := r.array.len,
              next := ((elems.drop (elems.length - r.array.len)).drop (r.array.len - r.next)).length,
              array := a2 }
      else
        (r.array.copy_from_slice r.next elems).map fun a1 =>
          { len := min (r.len + elems.length) r.array.len,
            next := r.next + elems.length, array := a1 }) := by
  rw [copy_from_slice, if_neg (by simp [h1, h2])]

theorem step_abs (r : RingArray T) (m b : List T) (hAbs : RingAbs r m) :
    ∃ r', r.copy_from_slice b = some r' ∧ r'.array.len = r.array.len ∧
      RingAbs r' (Oracle.extend_from_slice r.array.len m b) := by
  obtain ⟨hmle, hmlen, hlen_le⟩ := ringAbs_len_le r m hAbs
  obtain ⟨hnle, hnlt, hcase⟩ := hAbs
  by_cases htriv : r.array.is_empty || b.isEmpty
  · -- trivial branch: capacity 0 or empty batch, nothing happens
    refine ⟨r, ?_, rfl, ?_⟩
    · rw [copy_from_slice, if_pos htriv]
    · have : Oracle.extend_from_slice r.array.len m b = m := by
        rcases Bool.or_eq_true_iff.mp htriv with h | h
        · have : r.array.len = 0 := by
            simpa [LazyArray.is_empty, List.isEmpty_iff, LazyArray.len] using h
          simp [Oracle.extend_from_slice, this]
        · have : b = [] := by simpa [List.isEmpty_iff] using h
          simp [Oracle.extend_from_slice, this]
      rw [this]
      exact ⟨hnle, hnlt, hcase⟩
  · -- main branch: positive capacity and a non-empty batch
    simp only [Bool.or_eq_true, not_or] at htriv
    obtain ⟨hne1, hne2⟩ := htriv
    have hcap0 : 0 < r.array.len := by
      simp only [LazyArray.is_empty, List.isEmpty_iff] at hne1
      simp only [LazyArray.len]
      exact List.length_pos.mpr hne1
    have hb0 : b ≠ [] := by simpa [List.isEmpty_iff] using hne2
    have hb0' : 0 < b.length := List.length_pos.mpr hb0
    rw [copy_from_slice_main r b hne1 hne2,
      Oracle.extend_eq r.array.len hcap0 m b hmle]
    set cap := r.array.len with hcap
    have hdata_len : r.array.data.length = cap := rfl
    have hnext_lt : r.next < cap := hnlt hcap0
    have hnext_le_m : r.next ≤ m.length := by
      rcases hcase with ⟨hlc, hnl, hml, _⟩ | ⟨hlc, hml, _⟩ <;> omega
    set rest := b.drop (b.length - cap) with hrestdef
    clear_value cap
    have hrest_len : rest.length = b.length - (b.length - cap) := by
      rw [hrestdef, List.length_drop]
    clear_value rest
    by_cases hsplit : cap - r.next ≤ rest.length
    · -- the batch reaches the end of storage: wrap
      rw [if_pos hsplit]
      set head := rest.take (cap - r.next) with hheaddef
      set tail := rest.drop (cap - r.next) with htaildef
      have hhl : head.length = cap - r.next := by
        rw [hheaddef, List.length_take]
        omega
      have htl : tail.length = rest.length - (cap - r.next) := by
        rw [htaildef, List.length_drop]
      clear_value head tail
      have htl_le : tail.length ≤ r.next := by omega
      have hbound1 : r.next + head.length ≤ r.array.data.length := by omega
      rw [LazyArray.copy_from_slice_eq _ _ _ hbound1]
      have hdrop_cap : r.array.data.drop (r.next + head.length) = [] :=
        List.drop_of_length_le (by omega)
      set a1 : LazyArray T := ⟨r.array.data.take r.next ++ head.map some
        ++ r.array.data.drop (r.next + head.length)⟩ with ha1
      clear_value a1
      have ha1_data : a1.data = r.array.data.take r.next ++ head.map some := by
        rw [ha1, hdrop_cap, List.append_nil]
      have ha1_len : a1.data.length = cap := by
        rw [ha1_data, List.length_append, List.length_take, List.length_map]
        omega
      have hbound2 : 0 + tail.length ≤ a1.data.length := by omega
      rw [Option.some_bind, LazyArray.copy_from_slice_eq _ _ _ hbound2,
        Option.map_some']
      obtain ⟨p, hplen, hpm, hptake⟩ :
          ∃ p : List T, p.length = r.next ∧ p = m.drop (m.length - r.next) ∧
            r.array.data.take r.next = p.map some := by
        rcases hcase with ⟨hlc, hnl, hml, junk, hdata⟩ | ⟨hlc, hml, hdata⟩
        · refine ⟨m, by omega, by rw [show m.length - r.next = 0 by omega]; rfl, ?_⟩
          rw [hdata, List.take_append_eq_append_take,
            List.take_of_length_le (by rw [List.length_map]; omega),
            show r.next - (m.map some).length = 0 from by rw [List.length_map]; omega,
            List.take_zero, List.append_nil]
        · refine ⟨m.drop (cap - r.next), by rw [List.length_drop]; omega,
            by rw [hml], ?_⟩
          rw [hdata]
          exact List.take_left' (by rw [List.length_map, List.length_drop]; omega)
      have hht : head ++ tail = rest := by
        rw [hheaddef, htaildef, List.take_append_drop]
      have hKE : (m ++ b).drop (m.length + b.length - cap)
          = (p.drop tail.length ++ head) ++ tail := by
        rw [List.append_assoc, hht]
        by_cases hcb : cap ≤ b.length
        · have hpd : p.drop tail.length = [] := List.drop_of_length_le (by omega)
          rw [hpd, List.nil_append, List.drop_append_eq_append_drop,
            List.drop_of_length_le (by omega), List.nil_append, hrestdef]
          congr 1
          omega
        · have hrb : rest = b := by
            rw [hrestdef, show b.length - cap = 0 by omega, List.drop_zero]
          rw [List.drop_append_eq_append_drop,
            show m.length + b.length - cap - m.length = 0 by omega, List.drop_zero,
            hpm, List.drop_drop, hrb]
          congr 2
          omega
      set a2 : LazyArray T := ⟨a1.data.take 0 ++ tail.map some
        ++ a1.data.drop (0 + tail.length)⟩ with ha2
      clear_value a2
      have ha2_data : a2.data
          = tail.map some ++ ((p.drop tail.length).map some ++ head.map some) := by
        rw [ha2]
        show a1.data.take 0 ++ tail.map some ++ a1.data.drop (0 + tail.length) = _
        rw [List.take_zero, List.nil_append, Nat.zero_add, ha1_data, hptake,
          List.drop_append_eq_append_drop,
          show tail.length - (p.map some).length = 0 from by
            rw [List.length_map]; omega,
          List.drop_zero, ← List.map_drop]
      have ha2_len : a2.len = cap := by
        show a2.data.length = cap
        rw [ha2_data, List.length_append, List.length_append, List.length_map,
          List.length_map, List.length_map, List.length_drop]
        omega
      have hfirstlen : (p.drop tail.length ++ head).length = cap - tail.length := by
        rw [List.length_append, List.length_drop]
        omega
      refine ⟨_, rfl, ha2_len, ?_, ?_, Or.inr ⟨?_, ?_, ?_⟩⟩
      · show tail.length ≤ a2.len
        rw [ha2_len]
        omega
      · intro _
        show tail.length < a2.len
        rw [ha2_len]
        omega
      · exact ha2_len.symm
      · show ((m ++ b).drop (m.length + b.length - cap)).length = a2.len
        rw [ha2_len, hKE, List.length_append, hfirstlen]
        omega
      · show a2.data = _
        rw [ha2_len, hKE, List.drop_left' hfirstlen, List.take_left' hfirstlen,
          ha2_data, List.map_append]
    · -- the batch stays strictly inside the storage: no wrap
      rw [if_neg hsplit]
      have hblt : b.length < cap - r.next := by omega
      have hbound : r.next + b.length ≤ r.array.data.length := by omega
      rw [LazyArray.copy_from_slice_eq _ _ _ hbound, Option.map_some']
      set a1 : LazyArray T := ⟨r.array.data.take r.next ++ b.map some
        ++ r.array.data.drop (r.next + b.length)⟩ with ha1
      clear_value a1
      have ha1_len : a1.len = cap := by
        show a1.data.length = cap
        rw [ha1]
        show (r.array.data.take r.next ++ b.map some
          ++ r.array.data.drop (r.next + b.length)).length = cap
        rw [List.length_append, List.length_append, List.length_take,
          List.length_map, List.length_drop]
        omega
      refine ⟨_, rfl, ha1_len, ?_⟩
      rcases hcase with ⟨hlc, hnl, hml, junk, hdata⟩ | ⟨hlc, hml, hdata⟩
      · -- unwrapped stays unwrapped
        rw [show m.length + b.length - cap = 0 by omega, List.drop_zero]
        have hmin : min (r.len + b.length) cap = r.len + b.length :=
          Nat.min_eq_left (by omega)
        refine ⟨?_, ?_, Or.inl ⟨?_, ?_, ?_, ?_⟩⟩
        · show r.next + b.length ≤ a1.len
          rw [ha1_len]
          omega
        · intro _
          show r.next + b.length < a1.len
          rw [ha1_len]
          omega
        · show min (r.len + b.length) cap < a1.len
          rw [ha1_len, hmin]
          omega
        · show r.next + b.length = min (r.len + b.length) cap
          rw [hmin]
          omega
        · show (m ++ b).length = min (r.len + b.length) cap
          rw [hmin, List.length_append]
          omega
        · refine ⟨r.array.data.drop (r.next + b.length), ?_⟩
          rw [ha1]
          show r.array.data.take r.next ++ b.map some
            ++ r.array.data.drop (r.next + b.length) = _
          rw [List.map_append, hdata, List.take_append_eq_append_take,
            List.take_of_length_le (by rw [List.length_map]; omega),
            show r.next - (m.map some).length = 0 from by
              rw [List.length_map]; omega,
            List.take_zero, List.append_nil, ← hdata, List.append_assoc]
      · -- wrapped stays wrapped
        rw [show m.length + b.length - cap = b.length by omega]
        have hmin : min (r.len + b.length) cap = cap := Nat.min_eq_right (by omega)
        have hmodel : (m ++ b).drop b.length = m.drop b.length ++ b := by
          rw [List.drop_append_eq_append_drop,
            show b.length - m.length = 0 by omega, List.drop_zero]
        have ht0len : ((m.drop (cap - r.next)).map some).length = r.next := by
          rw [List.length_map, List.length_drop]
          omega
        have hdtake : r.array.data.take r.next = (m.drop (cap - r.next)).map some := by
          rw [hdata]
          exact List.take_left' ht0len
        have hddrop : r.array.data.drop (r.next + b.length)
            = ((m.take (cap - r.next)).drop b.length).map some := by
          rw [hdata, List.drop_append_eq_append_drop,
            List.drop_of_length_le (le_trans (le_of_eq ht0len) (by omega)),
            show r.next + b.length - ((m.drop (cap - r.next)).map some).length
              = b.length from by rw [ht0len]; omega,
            List.nil_append, List.map_drop]
        refine ⟨?_, ?_, Or.inr ⟨?_, ?_, ?_⟩⟩
        · show r.next + b.length ≤ a1.len
          rw [ha1_len]
          omega
        · intro _
          show r.next + b.length < a1.len
          rw [ha1_len]
          omega
        · show min (r.len + b.length) cap = a1.len
          rw [ha1_len, hmin]
        · show ((m ++ b).drop b.length).length = a1.len
          rw [ha1_len, List.length_drop, List.length_append]
          omega
        · have ha1_data : a1.data = r.array.data.take r.next ++ b.map some
              ++ r.array.data.drop (r.next + b.length) := by rw [ha1]
          show a1.data
            = (((m ++ b).drop b.length).drop (a1.len - (r.next + b.length))).map some
              ++ (((m ++ b).drop b.length).take (a1.len - (r.next + b.length))).map some
          rw [ha1_data, ha1_len, hmodel]
          rw [List.drop_append_eq_append_drop,
            show cap - (r.next + b.length) - (m.drop b.length).length = 0
              from by rw [List.length_drop]; omega,
            List.drop_zero, List.drop_drop,
            show b.length + (cap - (r.next + b.length)) = cap - r.next by omega]
          rw [List.take_append_eq_append_take,
            show cap - (r.next + b.length) - (m.drop b.length).length = 0
              from by rw [List.length_drop]; omega,
            List.take_zero, List.append_nil,
            show (m.drop b.length).take (cap - (r.next + b.length))
              = (m.take (cap - r.next)).drop b.length from by
                rw [List.drop_take]
                congr 1
                omega]
          rw [hdtake, hddrop, List.map_append]

theorem appendBatches_abs (batches : List (List T)) :
    ∀ (r : RingArray T) (m : List T), RingAbs r m →
      ∃ r', appendBatches r batches = some r' ∧ r'.array.len = r.array.len ∧
        RingAbs r' (batches.foldl (Oracle.extend_from_slice r.array.len) m) := by
  induction batches with
  | nil =>
    intro r m h
    exact ⟨r, rfl, rfl, h⟩
  | cons b bs ih =>
    intro r m h
    obtain ⟨r1, h1, hlen1, habs1⟩ := step_abs r m b h
    obtain ⟨r', h2, hlen2, habs2⟩ := ih r1 _ habs1
    refine ⟨r', ?_, by rw [hlen2, hlen1], ?_⟩
    · rw [appendBatches, h1, Option.some_bind, h2]
    · rw [List.foldl_cons]
      rw [hlen1] at habs2
      exact habs2

theorem with_capacity_len (cap : Nat) :
    (with_capacity cap : RingArray T).array.len = cap := by
  simp [with_capacity, LazyArray.lazy, LazyArray.len]

theorem reach_abs (cap : Nat) (batches : List (List T)) :
    ∃ r, appendBatches (with_capacity cap : RingArray T) batches = some r ∧
      r.array.len = cap ∧ RingAbs r (Oracle.run cap batches) := by
  obtain ⟨r, h1, h2, h3⟩ :=
    appendBatches_abs batches (with_capacity cap) [] (ringAbs_init cap)
  rw [with_capacity_len] at h2 h3
  exact ⟨r, h1, h2, h3⟩

theorem as_slices_of_abs (r : RingArray T) (m : List T) (h : RingAbs r m) :
    ∃ head tail, r.as_slices = some (head, tail) ∧ head ++ tail = m ∧
      (r.len < r.array.len → r.array.assume_init 0 r.len = some head ∧ tail = []) ∧
      (¬ r.len < r.array.len →
        r.array.assume_init r.next (r.array.len - r.next) = some head ∧
        r.array.assume_init 0 r.next = some tail) := by
  obtain ⟨hnle, hnlt, hcase⟩ := h
  rcases hcase with ⟨hlc, hnl, hml, junk, hdata⟩ | ⟨hlc, hml, hdata⟩
  · -- unwrapped: one contiguous view
    have hinit : r.array.assume_init 0 r.len = some m := by
      have := LazyArray.assume_init_shape r.array [] junk m (by simpa using hdata)
      simpa [hml] using this
    refine ⟨m, [], ?_, by simp, fun _ => ⟨hinit, rfl⟩, fun hc => absurd hlc hc⟩
    simp only [as_slices]
    rw [if_pos hlc, hinit, Option.map_some']
  · -- wrapped: head is the slot suffix, tail the slot prefix
    have hnltc : ¬ r.len < r.array.len := by omega
    have ht0l : ((m.drop (r.array.len - r.next)).map some).length = r.next := by
      rw [List.length_map, List.length_drop]
      omega
    have hh0l : (m.take (r.array.len - r.next)).length = r.array.len - r.next := by
      rw [List.length_take]
      omega
    have hhead : r.array.assume_init r.next (r.array.len - r.next)
        = some (m.take (r.array.len - r.next)) := by
      have := LazyArray.assume_init_shape r.array
        ((m.drop (r.array.len - r.next)).map some) []
        (m.take (r.array.len - r.next)) (by rw [hdata, List.append_nil])
      rwa [ht0l, hh0l] at this
    have htail : r.array.assume_init 0 r.next
        = some (m.drop (r.array.len - r.next)) := by
      have := LazyArray.assume_init_shape r.array []
        ((m.take (r.array.len - r.next)).map some)
        (m.drop (r.array.len - r.next)) (by simpa using hdata)
      rwa [List.length_nil, List.length_drop,
        show m.length - (r.array.len - r.next) = r.next by omega] at this
    refine ⟨m.take (r.array.len - r.next), m.drop (r.array.len - r.next), ?_,
      List.take_append_drop _ _, fun hc => absurd hc hnltc,
      fun _ => ⟨hhead, htail⟩⟩
    simp only [as_slices]
    rw [if_neg hnltc, hhead, Option.some_bind, htail, Option.map_some']

theorem appendWrites_main (r : RingArray T) (elems : List T)
    (h1 : ¬ r.array.is_empty = true) (h2 : ¬ elems.isEmpty = true) :
    r.appendWrites elems =
      if r.array.len - r.next ≤ (elems.drop (elems.length - r.array.len)).length then
        [(r.next, (elems.drop (elems.length - r.array.len)).take (r.array.len - r.next)),
         (0, (elems.drop (elems.length - r.array.len)).drop (r.array.len - r.next))]
      else [(r.next, elems)] := by
  rw [appendWrites, if_neg (by simp [h1, h2])]

end RingArray

namespace Oracle

variable {T : Type}

theorem length_extend_ge (cap : Nat) (m b : List T) (hm : m.length ≤ cap) :
    m.length ≤ (extend_from_slice cap m b).length := by
  by_cases hc : cap = 0
  · simp [extend_from_slice, hc]
  · rw [extend_eq cap (by omega) m b hm, List.length_drop, List.length_append]
    omega

theorem length_extend_full (cap : Nat) (m b : List T) (hm : m.length = cap) :
    (extend_from_slice cap m b).length = cap := by
  by_cases hc : cap = 0
  · simp [extend_from_slice, hc, hm]
  · rw [extend_eq cap (by omega) m b (le_of_eq hm), List.length_drop,
      List.length_append]
    omega

end Oracle

/-! ### Auxiliary facts for the claim theorems -/

theorem all_isSome_map_some {T : Type} (xs : List T) :
    ((xs.map some).all Option.isSome) = true := by
  induction xs with
  | nil => rfl
  | cons x xs ih => simp [ih]

/-! ### Claim theorems -/

/-- Claim C1: for every capacity and every sequence of append batches, the
ring buffer's final iteration order (`iter`, i.e. the two `as_slices` views
concatenated) equals the reference bounded deque of the same capacity that
pushes each batch element one at a time, popping the front whenever length
would exceed capacity; this covers batches larger than capacity and empty
batches, and no append ever panics or touches an uninitialized slot. -/
theorem ring_refines_bounded_deque (T : Type) (cap : Nat)
    (batches : List (List T)) :
    ∃ r l, RingArray.appendBatches (RingArray.with_capacity cap) batches
        = some r ∧
      r.iterList = some l ∧ l = Oracle.run cap batches := by
  obtain ⟨r, h1, hlen, habs⟩ := RingArray.reach_abs cap batches
  obtain ⟨head, tail, hsl, hcat, _, _⟩ := RingArray.as_slices_of_abs r _ habs
  exact ⟨r, head ++ tail, h1,
    by rw [RingArray.iterList, hsl, Option.map_some'], hcat⟩

/-- Claim C2: on every reachable ring-buffer state, `as_slices` returns two
views whose concatenation (first then second) is the full logical content
in insertion order; when `length < capacity` the first view covers slots
`[0, length)` and the second is empty, otherwise the first covers
`[next, capacity)` and the second `[0, next)`. -/
theorem ring_as_slices_two_views (T : Type) (cap : Nat)
    (batches : List (List T)) :
    ∃ r head tail,
      RingArray.appendBatches (RingArray.with_capacity cap) batches
        = some r ∧
      r.as_slices = some (head, tail) ∧
      head ++ tail = Oracle.run cap batches ∧
      (r.len < cap → r.array.assume_init 0 r.len = some head ∧ tail = []) ∧
      (¬ r.len < cap →
        r.array.assume_init r.next (cap - r.next) = some head ∧
        r.array.assume_init 0 r.next = some tail) := by
  obtain ⟨r, h1, hlen, habs⟩ := RingArray.reach_abs cap batches
  obtain ⟨head, tail, hsl, hcat, hun, hwr⟩ := RingArray.as_slices_of_abs r _ habs
  rw [hlen] at hun hwr
  exact ⟨r, head, tail, h1, hsl, hcat, hun, hwr⟩

/-- Claim C3: on every reachable ring-buffer state, `length ≤ capacity`;
and whenever `length < capacity`, the buffer has never wrapped: the
logical elements (the insertion-ordered content) occupy slots
`[0, length)` and `next = length`. -/
theorem ring_length_le_and_unwrapped (T : Type) (cap : Nat)
    (batches : List (List T)) :
    ∃ r, RingArray.appendBatches (RingArray.with_capacity cap) batches
        = some r ∧
      r.len ≤ cap ∧
      (r.len < cap → r.next = r.len ∧
        r.array.assume_init 0 r.len = some (Oracle.run cap batches)) := by
  obtain ⟨r, h1, hlen, habs⟩ := RingArray.reach_abs cap batches
  obtain ⟨hm1, hm2, hm3⟩ := RingArray.ringAbs_len_le r _ habs
  refine ⟨r, h1, by omega, ?_⟩
  intro hlt
  obtain ⟨hnle, hnlt, hcase⟩ := habs
  rcases hcase with ⟨hlc, hnl, hml, junk, hdata⟩ | ⟨hlc, _, _⟩
  · refine ⟨hnl, ?_⟩
    have := LazyArray.assume_init_shape r.array [] junk
      (Oracle.run cap batches) (by simpa using hdata)
    simpa [hml] using this
  · exact absurd hlt (by omega)

/-- Claim C4: writing a slice at an in-bounds index with `write_from_slice`
and then reading the same range back with `assume_init` yields the
original slice. -/
theorem lazy_write_round_trip (T : Type) (a : LazyArray T) (index : Nat)
    (elems : List T) (h : index + elems.length ≤ a.data.length) :
    ∃ a', a.write_from_slice index elems = some a' ∧
      a'.assume_init index elems.length = some elems := by
  refine ⟨⟨a.data.take index ++ elems.map some
      ++ a.data.drop (index + elems.length)⟩,
    by rw [LazyArray.write_from_slice, if_pos h], ?_⟩
  have := LazyArray.assume_init_shape
    ⟨a.data.take index ++ elems.map some ++ a.data.drop (index + elems.length)⟩
    (a.data.take index) (a.data.drop (index + elems.length)) elems rfl
  rwa [List.length_take, Nat.min_eq_left (by omega)] at this

/-- Witness for C4 at a concrete input. -/
theorem lazy_write_round_trip_witness :
    ∃ a', (LazyArray.lazy 3 : LazyArray Nat).write_from_slice 1 [5, 6]
        = some a' ∧
      a'.assume_init 1 [5, 6].length = some [5, 6] :=
  lazy_write_round_trip Nat (LazyArray.lazy 3) 1 [5, 6] (by decide)

/-- Claim C5: every `LazyArray` read, write or drop whose index plus length
exceeds the capacity panics (modelled as returning `none`), for all six
operations; since the bounds check precedes any mutation in the source, a
rejected call yields no successor state at all, so no slot is modified. -/
theorem lazy_bounds_reject (T : Type) (a : LazyArray T) (index n : Nat)
    (elems : List T) (hlen : elems.length = n)
    (h : a.data.length < index + n) :
    a.assume_init index n = none ∧ a.assume_init_mut index n = none ∧
    a.assume_init_drop index n = none ∧
    a.write_from_slice index elems = none ∧
    a.overwrite_from_slice index elems = none ∧
    a.copy_from_slice index elems = none := by
  subst hlen
  refine ⟨?_, ?_, ?_, ?_, ?_, ?_⟩
  · rw [LazyArray.assume_init, if_neg (by omega)]
  · rw [LazyArray.assume_init_mut, if_neg (by omega)]
  · rw [LazyArray.assume_init_drop, if_neg (by omega)]
  · rw [LazyArray.write_from_slice, if_neg (by omega)]
  · rw [LazyArray.overwrite_from_slice, if_neg (by omega)]
  · rw [LazyArray.copy_from_slice, if_neg (by omega)]

/-- Witness for C5 at a concrete input. -/
theorem lazy_bounds_reject_witness :
    (LazyArray.lazy 2 : LazyArray Nat).assume_init 1 4 = none ∧
    (LazyArray.lazy 2 : LazyArray Nat).assume_init_mut 1 4 = none ∧
    (LazyArray.lazy 2 : LazyArray Nat).assume_init_drop 1 4 = none ∧
    (LazyArray.lazy 2 : LazyArray Nat).write_from_slice 1 [9, 9, 9, 9]
      = none ∧
    (LazyArray.lazy 2 : LazyArray Nat).overwrite_from_slice 1 [9, 9, 9, 9]
      = none ∧
    (LazyArray.lazy 2 : LazyArray Nat).copy_from_slice 1 [9, 9, 9, 9]
      = none :=
  lazy_bounds_reject Nat (LazyArray.lazy 2) 1 4 [9, 9, 9, 9]
    (by decide) (by decide)

/-- Claim C6: on every reachable state, when the incoming batch is longer
than the capacity, the slices actually passed to the backing array's bulk
copy concatenate to exactly the batch's final `capacity` elements — the
earlier elements are never written; concretely, capacity 5 with a single
append of `[1,2,3,4,5,6,7]` iterates as `[3,4,5,6,7]`. -/
theorem ring_overlong_batch_skips_prefix (T : Type) (cap : Nat)
    (batches : List (List T)) (elems : List T) (h : cap < elems.length) :
    (∃ r, RingArray.appendBatches (RingArray.with_capacity cap) batches
        = some r ∧
      ((r.appendWrites elems).map Prod.snd).flatten
        = elems.drop (elems.length - cap)) ∧
    ((RingArray.with_capacity 5).copy_from_slice
        ([1, 2, 3, 4, 5, 6, 7] : List Nat)).bind RingArray.iterList
      = some [3, 4, 5, 6, 7] := by
  constructor
  · obtain ⟨r, h1, hlen, habs⟩ := RingArray.reach_abs cap batches
    refine ⟨r, h1, ?_⟩
    by_cases hc : cap = 0
    · subst hc
      have hdata : r.array.data = [] := by
        rw [← List.length_eq_zero]
        exact hlen
      rw [RingArray.appendWrites,
        if_pos (by simp [LazyArray.is_empty, hdata])]
      simp
    · obtain ⟨hnle, hnlt, _⟩ := habs
      have hne1 : ¬ r.array.is_empty = true := by
        simp only [LazyArray.is_empty, List.isEmpty_iff]
        intro hd
        rw [← List.length_eq_zero] at hd
        have : r.array.len = 0 := hd
        omega
      have hne2 : ¬ elems.isEmpty = true := by
        simp only [List.isEmpty_iff]
        intro he
        rw [← List.length_eq_zero] at he
        omega
      rw [RingArray.appendWrites_main r elems hne1 hne2, hlen,
        if_pos (by rw [List.length_drop]; omega)]
      simp only [List.map_cons, List.map_nil, List.flatten_cons, List.flatten_nil,
        List.append_nil]
      exact List.take_append_drop _ _
  · decide

/-- Witness for C6 at a concrete input. -/
theorem ring_overlong_batch_skips_prefix_witness :
    (∃ r, RingArray.appendBatches (RingArray.with_capacity 5)
        ([] : List (List Nat)) = some r ∧
      ((r.appendWrites [1, 2, 3, 4, 5, 6, 7]).map Prod.snd).flatten
        = [1, 2, 3, 4, 5, 6, 7].drop ([1, 2, 3, 4, 5, 6, 7].length - 5)) ∧
    ((RingArray.with_capacity 5).copy_from_slice
        ([1, 2, 3, 4, 5, 6, 7] : List Nat)).bind RingArray.iterList
      = some [3, 4, 5, 6, 7] :=
  ring_overlong_batch_skips_prefix Nat 5 [] [1, 2, 3, 4, 5, 6, 7] (by decide)

/-- Claim C7: overwriting a previously written range with a new slice of
the same length (which tears down each slot before writing) leaves the
range reading back as exactly the new slice, with no residue of the old
content. -/
theorem lazy_overwrite_replaces (T : Type) (a : LazyArray T) (index : Nat)
    (xs ys : List T) (hlen : ys.length = xs.length)
    (h : index + xs.length ≤ a.data.length) :
    ∃ a1 a2, a.write_from_slice index xs = some a1 ∧
      a1.overwrite_from_slice index ys = some a2 ∧
      a2.assume_init index ys.length = some ys := by
  set d1 : List (Option T) := a.data.take index ++ xs.map some
    ++ a.data.drop (index + xs.length) with hd1
  have htakelen : (a.data.take index).length = index := by
    rw [List.length_take]
    omega
  have hd1len : index + ys.length ≤ d1.length := by
    rw [hd1]
    simp only [List.length_append, List.length_map, List.length_drop, htakelen]
    omega
  have hdrop1 : d1.drop index
      = xs.map some ++ a.data.drop (index + xs.length) := by
    rw [hd1, List.append_assoc]
    exact List.drop_left' htakelen
  have hcheck : ((d1.drop index).take ys.length).all Option.isSome = true := by
    rw [hdrop1, hlen, List.take_append_eq_append_take,
      List.take_of_length_le (by rw [List.length_map]),
      show xs.length - (xs.map some).length = 0 from by
        rw [List.length_map]; omega,
      List.take_zero, List.append_nil]
    exact all_isSome_map_some xs
  have hov : (⟨d1⟩ : LazyArray T).overwrite_from_slice index ys
      = some ⟨d1.take index ++ ys.map some ++ d1.drop (index + ys.length)⟩ := by
    show (if index + ys.length ≤ d1.length then
        if ((d1.drop index).take ys.length).all Option.isSome then
          some (⟨d1.take index ++ ys.map some
            ++ d1.drop (index + ys.length)⟩ : LazyArray T)
        else none
      else none) = _
    rw [if_pos hd1len, if_pos hcheck]
  refine ⟨⟨d1⟩, ⟨d1.take index ++ ys.map some ++ d1.drop (index + ys.length)⟩,
    by rw [LazyArray.write_from_slice, if_pos h], hov, ?_⟩
  have := LazyArray.assume_init_shape
    ⟨d1.take index ++ ys.map some ++ d1.drop (index + ys.length)⟩
    (d1.take index) (d1.drop (index + ys.length)) ys rfl
  rwa [List.length_take, Nat.min_eq_left (by omega)] at this

/-- Witness for C7 at a concrete input. -/
theorem lazy_overwrite_replaces_witness :
    ∃ a1 a2, (LazyArray.lazy 4 : LazyArray Nat).write_from_slice 1 [7, 8]
        = some a1 ∧
      a1.overwrite_from_slice 1 [2, 3] = some a2 ∧
      a2.assume_init 1 [2, 3].length = some [2, 3] :=
  lazy_overwrite_replaces Nat (LazyArray.lazy 4) 1 [7, 8] [2, 3]
    (by decide) (by decide)

/-- Claim C8 counterexample: the state produced by construction with
capacity 0 is reachable, yet its write cursor does not satisfy
`next < capacity` (both are 0), refuting the claim as stated. -/
theorem ring_cursor_strict_bound_cex :
    RingArray.appendBatches (RingArray.with_capacity 0 : RingArray Nat) []
      = some (RingArray.with_capacity 0) ∧
    ¬ ((RingArray.with_capacity 0 : RingArray Nat).next
        < (RingArray.with_capacity 0 : RingArray Nat).array.len) :=
  ⟨rfl, by decide⟩

/-- Claim C8 (amended): on every reachable ring-buffer state the write
cursor satisfies `next ≤ capacity`, and `next < capacity` whenever the
capacity is positive; with capacity 0 the constructed state has
`next = 0 = capacity`. -/
theorem ring_cursor_bounds (T : Type) (cap : Nat)
    (batches : List (List T)) :
    ∃ r, RingArray.appendBatches (RingArray.with_capacity cap) batches
        = some r ∧
      r.next ≤ cap ∧ (0 < cap → r.next < cap) := by
  obtain ⟨r, h1, hlen, habs⟩ := RingArray.reach_abs cap batches
  obtain ⟨hnle, hnlt, _⟩ := habs
  rw [hlen] at hnle hnlt
  exact ⟨r, h1, hnle, hnlt⟩

/-- Claim C9: once the ring buffer's length has reached its capacity it
stays there: appending any further batch to a reachable state never
decreases the length, and keeps it equal to the capacity when it already
is. -/
theorem ring_wrapped_stays_wrapped (T : Type) (cap : Nat)
    (batches : List (List T)) (b : List T) :
    ∃ r r', RingArray.appendBatches (RingArray.with_capacity cap) batches
        = some r ∧
      r.copy_from_slice b = some r' ∧ r.len ≤ r'.len ∧
      (r.len = cap → r'.len = cap) := by
  obtain ⟨r, h1, hlen, habs⟩ := RingArray.reach_abs cap batches
  obtain ⟨r', h2, hlen', habs'⟩ := RingArray.step_abs r _ b habs
  obtain ⟨hm1, hm2, hm3⟩ := RingArray.ringAbs_len_le r _ habs
  obtain ⟨hm1', hm2', hm3'⟩ := RingArray.ringAbs_len_le r' _ habs'
  rw [hlen] at hm1 hm2'
  refine ⟨r, r', h1, h2, ?_, ?_⟩
  · have := Oracle.length_extend_ge cap (Oracle.run cap batches) b hm1
    omega
  · intro hfull
    have := Oracle.length_extend_full cap (Oracle.run cap batches) b
      (by omega)
    omega

/-- Claim C10: from any reachable state of a positive-capacity ring
buffer, appending any batch keeps the cursor strictly below the capacity;
in particular an append whose (possibly truncated) batch exactly fills the
storage to the end takes the wrapping branch and resets the cursor to 0
instead of leaving it at the capacity. -/
theorem ring_append_cursor_stays_in_range (T : Type) (cap : Nat)
    (batches : List (List T)) (b : List T) (hcap : 0 < cap) :
    ∃ r r', RingArray.appendBatches (RingArray.with_capacity cap) batches
        = some r ∧
      r.copy_from_slice b = some r' ∧ r'.next < cap ∧
      (b ≠ [] → (b.drop (b.length - cap)).length = cap - r.next →
        r'.next = 0) := by
  obtain ⟨r, h1, hlen, habs⟩ := RingArray.reach_abs cap batches
  obtain ⟨r', h2, hlen', habs'⟩ := RingArray.step_abs r _ b habs
  have hnlt' : r'.next < cap := by
    obtain ⟨_, hx, _⟩ := habs'
    rw [hlen', hlen] at hx
    exact hx hcap
  refine ⟨r, r', h1, h2, hnlt', ?_⟩
  intro hb hfill
  have hne1 : ¬ r.array.is_empty = true := by
    simp only [LazyArray.is_empty, List.isEmpty_iff]
    intro hd
    rw [← List.length_eq_zero] at hd
    have : r.array.len = 0 := hd
    omega
  have hne2 : ¬ b.isEmpty = true := by
    simp only [List.isEmpty_iff]
    exact hb
  rw [RingArray.copy_from_slice_main r b hne1 hne2, hlen,
    if_pos (le_of_eq hfill.symm)] at h2
  rcases hA : r.array.copy_from_slice r.next
      ((b.drop (b.length - cap)).take (cap - r.next)) with _ | a1
  · rw [hA, Option.none_bind] at h2
    cases h2
  · rw [hA, Option.some_bind] at h2
    rcases hB : a1.copy_from_slice 0
        ((b.drop (b.length - cap)).drop (cap - r.next)) with _ | a2
    · rw [hB] at h2
      simp at h2
    · rw [hB, Option.map_some'] at h2
      injection h2 with h2
      rw [← h2]
      show ((b.drop (b.length - cap)).drop (cap - r.next)).length = 0
      rw [List.length_drop, hfill]
      omega

/-- Witness for C10 at a concrete input. -/
theorem ring_append_cursor_stays_in_range_witness :
    ∃ r r', RingArray.appendBatches (RingArray.with_capacity 2)
        ([] : List (List Nat)) = some r ∧
      r.copy_from_slice [4, 5] = some r' ∧ r'.next < 2 ∧
      ([4, 5] ≠ ([] : List Nat) →
        ([4, 5].drop ([4, 5].length - 2)).length = 2 - r.next →
        r'.next = 0) :=
  ring_append_cursor_stays_in_range Nat 2 [] [4, 5] (by decide)

end Structures
